import Mathlib

/-!
Verification of the secure-time-share message store and encryption layer.

JavaScript strings are modelled as `List Char`; byte buffers (`Uint8Array`,
`ArrayBuffer`) as `List Nat` with every entry `< 256`.  `localStorage` cells
are modelled as explicit state passed through the translated functions.
The Web Crypto primitives (PBKDF2 derivation, AES-GCM seal/open) and the
TextEncoder/TextDecoder pair are platform externals; they are abstracted as a
`CryptoPrims` bundle whose contract fields state exactly the guarantees the
platform documents (deterministic derivation, AEAD round-trip, byte-valued
output).  Everything else — base64url encoding, salt/nonce layout, length
checks, the storage lookup/match/consume logic — is translated directly from
the TypeScript source.
-/

/-! ### JavaScript string operations -/

/-- Whitespace test used by the model of `String.prototype.trim`.  The JS
method strips a larger set of Unicode space code points; the source only ever
relies on trimming ordinary blanks, tabs and newlines. -/
def isJsSpace (c : Char) : Bool :=
  c = ' ' || c = '\t' || c = '\n' || c = '\r'

/-- Model of `s.trim()`: drop leading and trailing whitespace. -/
def jsTrim (s : List Char) : List Char :=
  ((s.dropWhile isJsSpace).reverse.dropWhile isJsSpace).reverse

/-- Model of `s.toLowerCase()` (locale-independent path). -/
def jsLower (s : List Char) : List Char :=
  s.map Char.toLower

/-- Model of `hay.includes(needle)`: `needle` occurs contiguously in `hay`. -/
def jsIncludes (hay needle : List Char) : Bool :=
  if needle.isPrefixOf hay then true
  else
    match hay with
    | [] => false
    | _ :: t => jsIncludes t needle

/-- Model of `s.substring(i, j)` for `i ≤ j` (JS clamps out-of-range ends). -/
def jsSubstring (s : List Char) (i j : Nat) : List Char :=
  (s.drop i).take (j - i)

/-- Model of `a.startsWith(b)`. -/
def jsStartsWith (a b : List Char) : Bool :=
  b.isPrefixOf a

/-! ### Base64 (the `btoa` / `atob` pair with URL-safe post-processing)

`btoa` turns a byte list into padded base64; `atob` decodes a padded base64
string, failing on any character outside the alphabet or misplaced padding.
Per the WHATWG forgiving-base64 algorithm the 4 or 2 bits left dangling by a
final `=`/`==` group are discarded without validation.  The source always
pads its input to a multiple of four characters before calling `atob`, so the
model only accepts fully padded input, as `atob` effectively does there. -/

/-- Base64 alphabet, sextet to character. -/
def b64EncChar (k : Nat) : Char :=
  Char.ofNat
    (if k < 26 then k + 65
     else if k < 52 then k + 71
     else if k < 62 then k - 4
     else if k = 62 then 43
     else 47)

/-- Base64 alphabet, character to sextet; `none` for a character outside the
alphabet (including `=`). -/
def b64DecChar (c : Char) : Option Nat :=
  let n := c.toNat
  if 65 ≤ n ∧ n ≤ 90 then some (n - 65)
  else if 97 ≤ n ∧ n ≤ 122 then some (n - 71)
  else if 48 ≤ n ∧ n ≤ 57 then some (n + 4)
  else if n = 43 then some 62
  else if n = 47 then some 63
  else none

/-- Model of `btoa` on a byte list: padded standard base64. -/
def btoaB : List Nat → List Char
  | [] => []
  | [b1] => [b64EncChar (b1 / 4), b64EncChar (b1 % 4 * 16), '=', '=']
  | [b1, b2] =>
      [b64EncChar (b1 / 4), b64EncChar (b1 % 4 * 16 + b2 / 16),
       b64EncChar (b2 % 16 * 4), '=']
  | b1 :: b2 :: b3 :: rest =>
      b64EncChar (b1 / 4) :: b64EncChar (b1 % 4 * 16 + b2 / 16) ::
      b64EncChar (b2 % 16 * 4 + b3 / 64) :: b64EncChar (b3 % 64) :: btoaB rest

/-- Model of `atob` on fully padded input: groups of four characters, `=`
allowed only as the last one or two characters of the whole string (a `==`
group yields one byte, a lone `=` group two bytes, discarding the dangling
bits as forgiving-base64 does). -/
def atobB : List Char → Option (List Nat)
  | [] => some []
  | c1 :: c2 :: c3 :: c4 :: rest =>
      match b64DecChar c1, b64DecChar c2 with
      | some s1, some s2 =>
        if c3 = '=' then
          if c4 = '=' ∧ rest = [] then some [s1 * 4 + s2 / 16] else none
        else
          match b64DecChar c3 with
          | some s3 =>
            if c4 = '=' then
              if rest = [] then some [s1 * 4 + s2 / 16, s2 % 16 * 16 + s3 / 4]
              else none
            else
              match b64DecChar c4, atobB rest with
              | some s4, some bs =>
                  some ((s1 * 4 + s2 / 16) :: (s2 % 16 * 16 + s3 / 4) ::
                        (s3 % 4 * 64 + s4) :: bs)
              | _, _ => none
          | none => none
      | _, _ => none
  | _ => none

/-- Model of `.replace(/=+$/, '')`: strip all trailing padding characters. -/
def stripEq (s : List Char) : List Char :=
  (s.reverse.dropWhile (fun c => c = '=')).reverse

/-- Model of the re-padding step `if (s.length % 4) s.padEnd(next multiple
of 4, '=')` performed before `atob`. -/
def padEq (s : List Char) : List Char :=
  if s.length % 4 = 0 then s
  else s ++ List.replicate (4 - s.length % 4) '='

/-- Standard-to-URL-safe alphabet map on one character: `+` becomes `-` and
`/` becomes `_`. -/
def toUrlChar (c : Char) : Char :=
  if c = '+' then '-' else if c = '/' then '_' else c

/-- URL-safe-to-standard alphabet map on one character: `-` becomes `+` and
`_` becomes `/`. -/
def fromUrlChar (c : Char) : Char :=
  if c = '-' then '+' else if c = '_' then '/' else c

/-- URL-safe base64url encoding of a byte list, as produced at
src/src/lib/encryption.ts:158: `btoa(...)` then `+`→`-`, `/`→`_`, strip `=`. -/
def b64UrlEncode (bs : List Nat) : List Char :=
  (stripEq (btoaB bs)).map toUrlChar

/-- URL-safe base64url decoding as performed at
src/src/lib/encryption.ts:170-185: map `-`→`+`, `_`→`/`, re-pad, `atob`. -/
def b64UrlDecode (s : List Char) : Option (List Nat) :=
  atobB (padEq (s.map fromUrlChar))

/-! ### Encryption engine (src/src/lib/encryption.ts)

`encryptMessage` (lines 129-163) and `decryptMessage` (lines 166-229) are
translated with the Web Crypto calls abstracted into a `CryptoPrims` bundle.
The randomness of `generateSalt` / `generateIV` is made explicit: the salt
and IV drawn inside `encryptMessage` become parameters of the translation. -/

/-- Failure cases of `decryptMessage`, one per distinct `throw` site inside
the `try` block (the outer `catch` then rewraps them all into one generic
user-facing message, which does not affect which site fired). -/
inductive DecryptError where
  | invalidBase64
  | tooShort
  | badSaltLength
  | badIvLength
  | decryptionFailed
deriving DecidableEq

/-- Platform cryptography externals used by the engine, with the contracts
the Web Crypto / Encoding specifications guarantee for them.  `deriveKey`
bundles the PBKDF2 export-import-derive sequence of lines 101-126: it is a
pure function of the root-key bytes and the salt.  `encrypt` / `decrypt` are
AES-GCM seal and open for a given derived key and 12-byte IV; `decrypt`
returns `none` on authentication failure.  `utf8Encode` / `utf8Decode` model
`TextEncoder.encode` / `TextDecoder.decode`. -/
structure CryptoPrims where
  deriveKey : List Nat → List Nat → List Nat
  encrypt : List Nat → List Nat → List Nat → List Nat
  decrypt : List Nat → List Nat → List Nat → Option (List Nat)
  utf8Encode : List Char → List Nat
  utf8Decode : List Nat → List Char
  decrypt_encrypt : ∀ k iv pt, decrypt k iv (encrypt k iv pt) = some pt
  encrypt_bytesLT : ∀ k iv pt, (∀ b ∈ pt, b < 256) → ∀ b ∈ encrypt k iv pt, b < 256
  utf8_bytesLT : ∀ s, ∀ b ∈ utf8Encode s, b < 256
  utf8_roundtrip : ∀ s, utf8Decode (utf8Encode s) = s

/-- Translation of `encryptMessage` (src/src/lib/encryption.ts:129-163).
The salt and IV drawn by `generateSalt()` / `generateIV()` are passed in
explicitly; the function derives the per-message key, seals the encoded
plaintext, concatenates salt ‖ IV ‖ ciphertext and base64url-encodes it. -/
def encryptMessage (P : CryptoPrims) (message : List Char)
    (key salt iv : List Nat) : List Char :=
  let messageKey := P.deriveKey key salt
  let encoded := P.utf8Encode message
  let ciphertext := P.encrypt messageKey iv encoded
  b64UrlEncode (salt ++ iv ++ ciphertext)

/-- Translation of `decryptMessage` (src/src/lib/encryption.ts:166-229):
trim, base64url-decode (error on invalid base64), reject buffers shorter
than 28 bytes (16-byte salt + 12-byte IV), split `slice(0,16)` /
`slice(16,28)` / `slice(28)`, validate component lengths, re-derive the
message key from the salt and AEAD-open the ciphertext. -/
def decryptMessage (P : CryptoPrims) (encryptedMessage : List Char)
    (key : List Nat) : Except DecryptError (List Char) :=
  let trimmedMessage := jsTrim encryptedMessage
  match b64UrlDecode trimmedMessage with
  | none => .error .invalidBase64
  | some combined =>
    if combined.length < 28 then .error .tooShort
    else
      let salt := combined.take 16
      let iv := (combined.drop 16).take 12
      let ciphertext := combined.drop 28
      if salt.length ≠ 16 then .error .badSaltLength
      else if iv.length ≠ 12 then .error .badIvLength
      else
        let messageKey := P.deriveKey key salt
        match P.decrypt messageKey iv ciphertext with
        | none => .error .decryptionFailed
        | some decrypted => .ok (P.utf8Decode decrypted)

/-! ### A concrete instance of the platform contract

Used to evaluate the engine on concrete inputs: characters are serialised
into four bytes of their code point, the AEAD appends a 16-byte tag of
zeros, and key derivation concatenates key and salt.  The instance exists
only to witness that the contract hypotheses are satisfiable; the theorems
about the engine hold for every instance. -/

/-- Four-byte big-endian serialisation of each character's code point. -/
def toyUtf8Enc : List Char → List Nat
  | [] => []
  | c :: t =>
      (c.toNat / 16777216 % 256) :: (c.toNat / 65536 % 256) ::
      (c.toNat / 256 % 256) :: (c.toNat % 256) :: toyUtf8Enc t

/-- Inverse of `toyUtf8Enc`, reading four bytes per character. -/
def toyUtf8Dec : List Nat → List Char
  | b1 :: b2 :: b3 :: b4 :: rest =>
      Char.ofNat (b1 * 16777216 + b2 * 65536 + b3 * 256 + b4) :: toyUtf8Dec rest
  | _ => []

/-- The concrete platform instance. -/
def toyPrims : CryptoPrims where
  deriveKey k s := k ++ s
  encrypt _ _ pt := pt ++ List.replicate 16 0
  decrypt _ _ ct := if 16 ≤ ct.length then some (ct.take (ct.length - 16)) else none
  utf8Encode := toyUtf8Enc
  utf8Decode := toyUtf8Dec
  decrypt_encrypt := by
    intro k iv pt
    have hlen : (pt ++ List.replicate 16 0).length = pt.length + 16 := by simp
    simp only [hlen]
    rw [if_pos (by omega)]
    congr 1
    rw [Nat.add_sub_cancel, List.take_append_of_le_length (Nat.le_refl _),
      List.take_length]
  encrypt_bytesLT := by
    intro k iv pt h b hb
    rcases List.mem_append.mp hb with h1 | h2
    · exact h b h1
    · have := List.eq_of_mem_replicate h2
      omega
  utf8_bytesLT := by
    intro s b hb
    induction s with
    | nil => simp [toyUtf8Enc] at hb
    | cons c t ih =>
      simp only [toyUtf8Enc, List.mem_cons] at hb
      rcases hb with h | h | h | h | h
      · omega
      · omega
      · omega
      · omega
      · exact ih h
  utf8_roundtrip := by
    intro s
    induction s with
    | nil => rfl
    | cons c t ih =>
      have hb : c.toNat < 4294967296 := UInt32.toNat_lt_size c.val
      simp only [toyUtf8Enc, toyUtf8Dec, ih]
      have he : c.toNat / 16777216 % 256 * 16777216 + c.toNat / 65536 % 256 * 65536 +
          c.toNat / 256 % 256 * 256 + c.toNat % 256 = c.toNat := by omega
      rw [he, Char.ofNat_toNat]

/-! ### Storage data model (src/src/lib/storage.ts:2-11, storage/types)

`MessageData` is translated field for field; nullable/optional fields become
`Option`.  JS numbers holding timestamps and counters become `Int`. -/

structure Msg where
  id : List Char
  encryptedContent : List Char
  expiresAt : Option Int
  maxViews : Option Int
  currentViews : Int
  createdAt : Int
  sharedWithUsers : Option (List (List Char))
  ownerId : Option (List Char)
deriving DecidableEq

/-- The `localStorage` cells the translated operations touch: the global
`secureMessages` array, the per-user `userMessages` array of the
currently signed-in user (empty and unused when signed out), and the
`secureMessageKeys` object.  A JS object is modelled as an association list
in insertion order with pairwise-distinct keys, matching `Object.keys`
enumeration order for the high-entropy string ids used here. -/
structure StoreState where
  messages : List Msg
  userMessages : List Msg
  keys : List (List Char × List Char)
deriving DecidableEq

/-- Value of `keys[id]` on the association-list model of a JS object. -/
def keysLookup (ks : List (List Char × List Char)) (id : List Char) :
    Option (List Char) :=
  (ks.find? (fun e => e.fst == id)).map Prod.snd

/-- Model of `keys[id] = v`: overwrite in place, or append a new entry. -/
def keysSet (ks : List (List Char × List Char)) (id v : List Char) :
    List (List Char × List Char) :=
  if ks.any (fun e => e.fst == id) then
    ks.map (fun e => if e.fst == id then (id, v) else e)
  else ks ++ [(id, v)]

/-- Model of `delete keys[id]`. -/
def keysErase (ks : List (List Char × List Char)) (id : List Char) :
    List (List Char × List Char) :=
  ks.filter (fun e => !(e.fst == id))

/-! ### `isMessageExpired` (src/src/lib/storage/messages.ts:410-424)

`Date.now()` is the ambient clock; it becomes the explicit `now` argument. -/

/-- Translation of `isMessageExpired`: view limit reached, or expiry time
strictly passed. -/
def isMessageExpired (now : Int) (message : Msg) : Bool :=
  if (match message.maxViews with
      | some mv => decide (mv ≤ message.currentViews)
      | none => false) then true
  else if (match message.expiresAt with
      | some t => decide (t < now)
      | none => false) then true
  else false

/-! ### Fuzzy lookup (src/src/lib/storage/messages.ts:146-271) -/

/-- The inner double loop of the partial-match scoring
(messages.ts:217-224): scan substrings of `mid` starting at `i <
mid.length - 10` with lengths from 10 to `mid.length - i`, and keep the
longest one contained in the query.  Substrings beginning at the final
`mid.length - 10` offset are never visited by the source loop. -/
def scanLongest (mid q : List Char) : Nat :=
  (List.range (mid.length - 10)).foldl
    (fun acc i =>
      (List.range' 10 (mid.length - i - 9)).foldl
        (fun acc2 len =>
          if jsIncludes q (jsSubstring mid i (i + len)) && decide (acc2 < len)
          then len else acc2)
        acc)
    0

/-- The `longestMatch` computed for a stored id `mid` against the query
(messages.ts:208-225): containment in either direction, else the substring
scan. -/
def longestMatchOf (mid q : List Char) : Nat :=
  if jsIncludes mid q then q.length
  else if jsIncludes q mid then mid.length
  else scanLongest mid q

/-- The begin-of-string bonus test (messages.ts:228-229). -/
def beginningMatchOf (mid q : List Char) : Bool :=
  jsStartsWith mid (jsSubstring q 0 10) || jsStartsWith q (jsSubstring mid 0 10)

/-- The confidence score (messages.ts:231). -/
def confidenceOf (mid q : List Char) : Nat :=
  longestMatchOf mid q + (if beginningMatchOf mid q then 10 else 0)

/-- One element of the `partialMatches` array (messages.ts:233-237). -/
structure Scored where
  message : Msg
  confidence : Nat
  longestMatch : Nat
deriving DecidableEq

/-- Builds the scored entry for one stored message (messages.ts:206-238). -/
def scoreMessage (q : List Char) (m : Msg) : Scored :=
  ⟨m, confidenceOf m.id q, longestMatchOf m.id q⟩

/-- One step of `argmaxFirst`: keep the current best, replacing it only on a
strictly larger key. -/
def argmaxStep {α β : Type} [LinearOrder β] (f : α → β) (acc : Option α)
    (x : α) : Option α :=
  match acc with
  | none => some x
  | some b => if f b < f x then some x else some b

/-- Model of `list.sort(comparator)[0]` for a numeric-difference comparator
on the key `f`: JS `Array.prototype.sort` is stable, so index 0 of the
descending sort is the first element attaining the maximal key. -/
def argmaxFirst {α β : Type} [LinearOrder β] (f : α → β) (l : List α) :
    Option α :=
  l.foldl (argmaxStep f) none

/-- The `partialMatches` array of messages.ts:205-240: score every stored
message against the query and keep the entries whose `longestMatch` reaches
10 (the list keeps storage order; the descending stable sort happens in
`getMessage` via `argmaxFirst`). -/
def partialMatchesOf (msgs : List Msg) (cleanId : List Char) : List Scored :=
  (msgs.map (scoreMessage cleanId)).filter (fun s => decide (10 ≤ s.longestMatch))

/-- The `truncatedMatches` array of messages.ts:250-253: stored ids that
agree with the query on one side's first 20 characters. -/
def truncatedMatchesOf (msgs : List Msg) (cleanId : List Char) : List Msg :=
  msgs.filter (fun m =>
    jsStartsWith m.id (jsSubstring cleanId 0 20) ||
    jsStartsWith cleanId (jsSubstring m.id 0 20))

/-- Translation of `getMessage` (src/src/lib/storage/messages.ts:146-271):
exact match, case-insensitive match, confidence-ranked partial match over
entries whose `longestMatch` reaches 10, then the 20-character truncation
tier (unique match, or the most recent `createdAt` among several). -/
def getMessage (msgs : List Msg) (id : List Char) : Option Msg :=
  if id = [] then none
  else
    let cleanId := jsTrim id
    match msgs.find? (fun m => m.id == cleanId) with
    | some m => some m
    | none =>
      match msgs.find? (fun m => jsLower m.id == jsLower cleanId) with
      | some m => some m
      | none =>
        match argmaxFirst (fun s => s.confidence) (partialMatchesOf msgs cleanId) with
        | some best => some best.message
        | none =>
          let truncatedMatches := truncatedMatchesOf msgs cleanId
          if truncatedMatches.length = 1 then truncatedMatches.head?
          else if 1 < truncatedMatches.length then
            argmaxFirst (fun m => m.createdAt) truncatedMatches
          else none

/-! ### Mutating operations on the message store -/

/-- Translation of `updateMessage` (src/src/lib/storage/messages.ts:276-301):
replace every stored message carrying the updated id, in both the global and
(when signed in) the per-user cell.  Returns `true` on success. -/
def updateMessage (st : StoreState) (userId : Option (List Char))
    (updatedMessage : Msg) : Bool × StoreState :=
  let messages' := st.messages.map (fun m =>
    if m.id == updatedMessage.id then updatedMessage else m)
  let userMessages' :=
    match userId with
    | some _ => st.userMessages.map (fun m =>
        if m.id == updatedMessage.id then updatedMessage else m)
    | none => st.userMessages
  (true, ⟨messages', userMessages', st.keys⟩)

/-- The guard of the consume transition
(src/src/lib/storage/messages.ts:373): `maxViews !== null && currentViews >=
maxViews`.  The expiry time is not consulted here. -/
def viewLimitReached (message : Msg) : Bool :=
  match message.maxViews with
  | some mv => decide (mv ≤ message.currentViews)
  | none => false

/-- The updated record built at messages.ts:378-381. -/
def bumpViews (message : Msg) : Msg :=
  { message with currentViews := message.currentViews + 1 }

/-- Translation of `incrementMessageViews`
(src/src/lib/storage/messages.ts:368-405): resolve via `getMessage`; if the
view limit is already reached return the record unchanged; otherwise
increment `currentViews`, persist through `updateMessage`, and return the
updated record (or the stale one if persisting reported failure). -/
def incrementMessageViews (st : StoreState) (userId : Option (List Char))
    (id : List Char) : Option Msg × StoreState :=
  match getMessage st.messages id with
  | none => (none, st)
  | some message =>
    if viewLimitReached message then (some message, st)
    else
      let updatedMessage := bumpViews message
      let res := updateMessage st userId updatedMessage
      if res.fst then (some updatedMessage, res.snd)
      else (some message, res.snd)

/-! ### Key vault (src/src/lib/storage/keys.ts, identical to the blocks at
src/src/lib/storage.ts:962-1166) -/

/-- Translation of `storeEncryptionKey` (keys.ts:6-47) acting on the
`secureMessageKeys` cell: store the trimmed key under the trimmed id and,
when the id is longer than 20 characters, additionally under its first 20
characters. -/
def storeEncryptionKeyOn (ks : List (List Char × List Char))
    (messageId encodedKey : List Char) : List (List Char × List Char) :=
  if messageId = [] || encodedKey = [] then ks
  else
    let cleanId := jsTrim messageId
    let trimmedKey := jsTrim encodedKey
    let ks1 := keysSet ks cleanId trimmedKey
    let shortId := jsSubstring cleanId 0 20
    if shortId ≠ cleanId then keysSet ks1 shortId trimmedKey else ks1

/-- The partial-match predicate of the key-vault lookup (keys.ts:106-122):
containment in either direction, or some substring of the stored id of
length at least 10 (the scan skipping final offsets, as in `scanLongest`)
contained in the query. -/
def keyPartialMatch (kid cleanId : List Char) : Bool :=
  jsIncludes kid cleanId || jsIncludes cleanId kid ||
    (List.range (kid.length - 10)).any (fun i =>
      (List.range' 10 (kid.length - i - 9)).any (fun len =>
        jsIncludes cleanId (jsSubstring kid i (i + len))))

/-- Tiers three and four of `getEncryptionKey` (keys.ts:97-158): the
first-20-characters (truthy) hit, then partial matching.  A single partial
candidate is returned directly; with several, candidates whose id also
partially matches a stored message id are preferred, falling back to the
first partial candidate when none does. -/
def getEncryptionKeyLate (ks : List (List Char × List Char)) (msgs : List Msg)
    (cleanId : List Char) : Option (List Char) :=
  let keyIds := ks.map Prod.fst
  let shortId := jsSubstring cleanId 0 20
  let short := match keysLookup ks shortId with
    | some k => if k = [] then none else some k
    | none => none
  match short with
  | some k => some k
  | none =>
    let partialMatchIds := keyIds.filter (fun kid => keyPartialMatch kid cleanId)
    match partialMatchIds with
    | [] => none
    | [kid] => keysLookup ks kid
    | kid :: _ :: _ =>
      let messageIds := msgs.map (fun m => m.id)
      let existingMessageMatches := partialMatchIds.filter (fun k2 =>
        messageIds.any (fun mid => jsIncludes mid k2 || jsIncludes k2 mid))
      match existingMessageMatches with
      | [mk] => keysLookup ks mk
      | mk :: _ => keysLookup ks mk
      | [] => keysLookup ks kid

/-- Translation of `getEncryptionKey` (keys.ts:52-163): exact (truthy) hit,
case-insensitive hit (skipped when the found id itself is falsy, as in the
source's truthiness test), then the remaining tiers. -/
def getEncryptionKey (ks : List (List Char × List Char)) (msgs : List Msg)
    (messageId : List Char) : Option (List Char) :=
  if messageId = [] then none
  else
    let cleanId := jsTrim messageId
    let keyIds := ks.map Prod.fst
    let exact := match keysLookup ks cleanId with
      | some k => if k = [] then none else some k
      | none => none
    match exact with
    | some k => some k
    | none =>
      let ciId := keyIds.find? (fun kid => jsLower kid == jsLower cleanId)
      match ciId with
      | some kid =>
        if kid = [] then getEncryptionKeyLate ks msgs cleanId
        else keysLookup ks kid
      | none => getEncryptionKeyLate ks msgs cleanId

/-- The partial-match sweep of `removeEncryptionKey` (keys.ts:191-205):
delete every entry whose id contains, or is contained in, the target id. -/
def removeKeyPartialOn (ks : List (List Char × List Char))
    (messageId : List Char) : Bool × List (List Char × List Char) :=
  let possibleMatches := (ks.map Prod.fst).filter (fun kid =>
    jsIncludes kid messageId || jsIncludes messageId kid)
  if possibleMatches.length > 0 then
    (true, ks.filter (fun e => !(possibleMatches.contains e.fst)))
  else (false, ks)

/-- Translation of `removeEncryptionKey` (keys.ts:168-210): when a truthy
entry exists under the exact id, delete that entry alone and return;
otherwise delete all partial matches. -/
def removeEncryptionKeyOn (ks : List (List Char × List Char))
    (messageId : List Char) : Bool × List (List Char × List Char) :=
  if messageId = [] then (false, ks)
  else
    match keysLookup ks messageId with
    | some v =>
      if v ≠ [] then (true, keysErase ks messageId)
      else removeKeyPartialOn ks messageId
    | none => removeKeyPartialOn ks messageId

/-! ### `saveMessage` and `deleteMessage`
(src/src/lib/storage/messages.ts:46-141 and 306-330) -/

/-- Upsert step shared by the global and per-user cells
(messages.ts:66-73 and 124-129): replace the first entry with the same id,
else append. -/
def upsertById (msgs : List Msg) (message : Msg) : List Msg :=
  match msgs.findIdx? (fun m => m.id == message.id) with
  | some i => msgs.set i message
  | none => msgs ++ [message]

/-- Translation of `saveMessage` (src/src/lib/storage/messages.ts:46-141).
Rejects a message with missing id or ciphertext; stamps `ownerId` with the
current user id when signed in; upserts into the global cell and, when
signed in, the per-user cell; finally `storeMessageKey` caches the key from
the ambient URL fragment (`urlHash`, including its leading `#`) when one is
present.  The read-back verification of lines 87-116 compares the value
just written with itself and cannot fail in the store model; its first
guard (an empty serialisation alongside a non-empty list) is kept. -/
def saveMessage (st : StoreState) (userId : Option (List Char))
    (urlHash : Option (List Char)) (message : Msg) : Bool × StoreState :=
  if message.id = [] || message.encryptedContent = [] then (false, st)
  else
    let message := match userId with
      | some u => { message with ownerId := some u }
      | none => message
    let messages' := upsertById st.messages message
    if messages' = [] ∧ 0 < messages'.length then (false, st)
    else
      let userMessages' := match userId with
        | some _ => upsertById st.userMessages message
        | none => st.userMessages
      let keys' := match urlHash with
        | some h =>
          if 1 < h.length then storeEncryptionKeyOn st.keys message.id (h.drop 1)
          else st.keys
        | none => st.keys
      (true, ⟨messages', userMessages', keys'⟩)

/-- Translation of `deleteMessage` (src/src/lib/storage/messages.ts:306-330):
filter the record with exactly this id out of the global and (when signed
in) per-user cells, then cascade to the key vault via
`removeEncryptionKey`. -/
def deleteMessage (st : StoreState) (userId : Option (List Char))
    (id : List Char) : Bool × StoreState :=
  let messages' := st.messages.filter (fun m => !(m.id == id))
  let userMessages' := match userId with
    | some _ => st.userMessages.filter (fun m => !(m.id == id))
    | none => st.userMessages
  let keys' := (removeEncryptionKeyOn st.keys id).snd
  (true, ⟨messages', userMessages', keys'⟩)

/-! ### `getAllMessages` under storage corruption
(src/src/lib/storage/core.ts:34-70 and src/src/lib/storage.ts:16-38)

The raw `secureMessages` cell is classified by what `localStorage.getItem`
plus `JSON.parse` observe: absent, present but unparseable (parse throws),
present and parseable but not an array, or a well-formed array.  The
functions return the message list together with the cell value they leave
behind. -/

inductive RawCell where
  | missing
  | corrupt (s : List Char)
  | nonArray (s : List Char)
  | arr (msgs : List Msg)
deriving DecidableEq

/-- Translation of `getAllMessages` in storage/core.ts:34-70: a missing cell
is initialised to `[]`; a cell that fails to parse, or parses to a
non-array, is destructively reset to `[]` and the empty list returned; a
well-formed array is returned unchanged. -/
def getAllMessagesCore : RawCell → List Msg × RawCell
  | .missing => ([], .arr [])
  | .corrupt _ => ([], .arr [])
  | .nonArray _ => ([], .arr [])
  | .arr msgs => (msgs, .arr msgs)

/-- Translation of the private `getAllMessages` in storage.ts:16-38: same
except a missing cell is left missing. -/
def getAllMessagesMono : RawCell → List Msg × RawCell
  | .missing => ([], .missing)
  | .corrupt _ => ([], .arr [])
  | .nonArray _ => ([], .arr [])
  | .arr msgs => (msgs, .arr msgs)

/-! ### Spec-side predicates used to state claims -/

/-- Spec-side predicate, following the claim wording only: the two strings
share a contiguous common substring of at least 10 characters (equivalently,
some length-10 substring of `a` occurs in `b`). -/
def specShares10 (a b : List Char) : Bool :=
  (List.range (a.length - 9)).any (fun i => jsIncludes b (jsSubstring a i (i + 10)))

/-! ### Concrete stores, records and queries used in the counterexamples
and witnesses below -/

/-- Spec-side predicate: the strings share a 10-character substring in either
presentation order (sharing is symmetric; both directions are provided so the
statement mirrors the claim exactly). -/
def specShares10Either (a b : List Char) : Bool :=
  specShares10 a b || specShares10 b a

def msgC2 : Msg := ⟨"msg-0001-view".toList, "ct".toList, some 0, none, 0, 5, none, none⟩

def stC2 : StoreState := ⟨[msgC2], [], []⟩

def kidC5 : List Char := "abcdefghij".toList

def keyValC5 : List Char := "KEYMATERIAL42".toList

def queryC5 : List Char := "abcdefghijklmnopqrstu".toList

def msgC6 : Msg := ⟨"abcdefghijklmnop".toList, "ct".toList, none, none, 0, 0, none, none⟩

def queryC6 : List Char := "abcde".toList

def msgA1 : Msg := ⟨"ABCDEFGHIJKLMNOPQRSTX".toList, "c1".toList, none, none, 0, 1, none, none⟩

def msgA2 : Msg := ⟨"ABCDEFGHIJKLMNOPQRSTY".toList, "c2".toList, none, none, 0, 2, none, none⟩

def queryC7 : List Char := "ABCDEFGHIJKLMNOPQRST".toList

def fullIdC8 : List Char := "0123456789abcdefghijWXYZ".toList

def keyValC8 : List Char := "KEEPME".toList

def shortIdC8 : List Char := jsSubstring fullIdC8 0 20

def recC8 : Msg := ⟨fullIdC8, "ct".toList, none, none, 0, 0, none, none⟩

def stC8 : StoreState := ⟨[recC8], [], storeEncryptionKeyOn [] fullIdC8 keyValC8⟩

def msgW2 : Msg := ⟨"w-id-00017".toList, "ct".toList, none, some 2, 0, 0, none, none⟩

def stW2 : StoreState := ⟨[msgW2], [], []⟩

def msgW10 : Msg :=
  ⟨"owner-rec-01".toList, "ct".toList, none, none, 0, 0, none, some "olduser".toList⟩

def stW10 : StoreState := ⟨[msgW10], [], []⟩

/-! ### Claim C3 -/

/-- C3: for every record and every current time, `isMessageExpired` returns
true exactly when the view limit is reached or the expiry time has passed;
both limits may be set and either alone triggers the predicate. -/
theorem isMessageExpired_iff (now : Int) (m : Msg) :
    isMessageExpired now m = true ↔
      (∃ mv, m.maxViews = some mv ∧ mv ≤ m.currentViews) ∨
      (∃ t, m.expiresAt = some t ∧ t < now) := by
  rcases hmv : m.maxViews with _ | mv <;> rcases hex : m.expiresAt with _ | t <;>
    simp [isMessageExpired, hmv, hex]

/-! ### Claim C9 -/

/-- C9: when the persisted `secureMessages` value is present but fails to
parse, or parses to a non-array, both versions of `getAllMessages` reset the
cell to the empty array and return the empty list — no failure is surfaced
and all previously stored records are discarded. -/
theorem getAllMessages_destructive_reset (s : List Char) :
    getAllMessagesCore (RawCell.corrupt s) = ([], RawCell.arr []) ∧
    getAllMessagesCore (RawCell.nonArray s) = ([], RawCell.arr []) ∧
    getAllMessagesMono (RawCell.corrupt s) = ([], RawCell.arr []) ∧
    getAllMessagesMono (RawCell.nonArray s) = ([], RawCell.arr []) :=
  ⟨rfl, rfl, rfl, rfl⟩

/-! ### Claim C2 — counterexample

A record whose `expiresAt` lies in the past is consumed per the section-3
invariant, yet `incrementMessageViews` only consults the view limit: it
increments and persists anyway. -/

/-- C2 counterexample: at time 1 the record is already consumed (its expiry
time 0 has passed), but the consume operation increments `currentViews` to 1
and persists the changed record instead of returning it unchanged. -/
theorem incrementMessageViews_ignores_time_expiry :
    isMessageExpired 1 msgC2 = true ∧
    (incrementMessageViews stC2 none msgC2.id).fst = some (bumpViews msgC2) ∧
    (incrementMessageViews stC2 none msgC2.id).snd.messages = [bumpViews msgC2] ∧
    bumpViews msgC2 ≠ msgC2 := by decide

/-! ### Claim C4 — counterexample

Forty characters `A` decode to 30 zero bytes: fewer than 44, yet the length
guard (which only requires 28) passes and the failure comes from the AEAD
open stage, not from the invalid-ciphertext pre-check. -/

/-- C4 counterexample: an input decoding to 30 bytes (< 44) is not rejected
by the too-short pre-check; key derivation and AEAD decryption are reached
and the result is the AEAD-stage failure. -/
theorem decryptMessage_short_not_prechecked :
    b64UrlDecode (List.replicate 40 'A') = some (List.replicate 30 0) ∧
    decryptMessage toyPrims (List.replicate 40 'A') [] =
      Except.error DecryptError.decryptionFailed :=
  ⟨rfl, rfl⟩

/-! ### Claim C5 — counterexample

A key vault holding a single entry whose id partially matches the query is
consulted with an empty message store: no live record exists at all, yet the
stored key is returned, because the live-record restriction only runs in the
multi-candidate branch. -/

/-- C5 counterexample: with no stored message records whatsoever, the
similarity fallback still returns the orphaned key. -/
theorem getEncryptionKey_returns_orphaned_key :
    getEncryptionKey [(kidC5, keyValC5)] [] queryC5 = some keyValC5 := by decide

/-! ### Claim C6 — counterexample

Stored id `abcdefghijklmnop` and query `abcde` share no 10-character
substring (their longest common substring has 5 characters), there is no
exact or case-insensitive match, yet the truncation tier returns the record
because the stored id starts with the (short) query. -/

/-- C6 counterexample: a record is returned although no stored id shares a
substring of at least 10 characters with the query. -/
theorem getMessage_truncation_bypasses_threshold :
    getMessage [msgC6] queryC6 = some msgC6 ∧
    specShares10 msgC6.id queryC6 = false ∧
    specShares10 queryC6 msgC6.id = false ∧
    msgC6.id ≠ queryC6 ∧
    jsLower msgC6.id ≠ jsLower queryC6 := by decide

/-! ### Claim C7 — counterexample

Two stored ids share the 20-character prefix used as the query.  The claim
says the one with the later `createdAt` is returned; the code resolves both
through the partial-match tier at equal confidence 30 and the stable sort
keeps store order, returning the older first-stored record. -/

/-- C7 counterexample: the query is the first 20 characters of both stored
ids; the record with the earlier `createdAt` (stored first) is returned,
not the one with the latest `createdAt`. -/
theorem getMessage_prefix_tie_not_latest :
    queryC7 = jsSubstring msgA2.id 0 20 ∧
    jsStartsWith msgA1.id queryC7 = true ∧
    jsStartsWith msgA2.id queryC7 = true ∧
    msgA1.createdAt < msgA2.createdAt ∧
    getMessage [msgA1, msgA2] queryC7 = some msgA1 := by decide

/-! ### Claim C8 — counterexample

`storeEncryptionKey` stores a long id's key twice: under the full id and
under its first 20 characters.  Deleting the message removes only the
exact-id entry, leaving the prefix entry although it matches the
partial-match rule (the full id contains it). -/

/-- C8 counterexample: after `deleteMessage` on the exact id, the key entry
stored under the 20-character prefix — which matches the partial rule, since
the full id contains it — survives in the vault. -/
theorem deleteMessage_leaves_partial_key :
    stC8.keys = [(fullIdC8, keyValC8), (shortIdC8, keyValC8)] ∧
    (deleteMessage stC8 none fullIdC8).snd.messages = [] ∧
    (deleteMessage stC8 none fullIdC8).snd.keys = [(shortIdC8, keyValC8)] ∧
    jsIncludes fullIdC8 shortIdC8 = true := by decide

/-! ### Properties of `argmaxFirst` (head of a stable descending sort) -/

theorem foldl_argmaxStep_some {α β : Type} [LinearOrder β] (f : α → β)
    (l : List α) (b : α) :
    ∃ c, l.foldl (argmaxStep f) (some b) = some c ∧ (c = b ∨ c ∈ l) ∧
      f b ≤ f c ∧ (∀ y ∈ l, f y ≤ f c) := by
  induction l generalizing b with
  | nil => exact ⟨b, rfl, Or.inl rfl, le_refl _, by simp⟩
  | cons x t ih =>
    by_cases hx : f b < f x
    · obtain ⟨c, hc, hmem, hle, hall⟩ := ih x
      refine ⟨c, ?_, ?_, ?_, ?_⟩
      · simpa [argmaxStep, hx] using hc
      · rcases hmem with h | h
        · exact Or.inr (h ▸ List.mem_cons_self x t)
        · exact Or.inr (List.mem_cons_of_mem x h)
      · exact le_trans (le_of_lt hx) hle
      · intro y hy
        rcases List.mem_cons.mp hy with h | h
        · exact h ▸ hle
        · exact hall y h
    · obtain ⟨c, hc, hmem, hle, hall⟩ := ih b
      refine ⟨c, ?_, ?_, hle, ?_⟩
      · simpa [argmaxStep, hx] using hc
      · rcases hmem with h | h
        · exact Or.inl h
        · exact Or.inr (List.mem_cons_of_mem x h)
      · intro y hy
        rcases List.mem_cons.mp hy with h | h
        · exact h ▸ le_trans (not_lt.mp hx) hle
        · exact hall y h

theorem argmaxFirst_spec {α β : Type} [LinearOrder β] (f : α → β)
    (l : List α) (hne : l ≠ []) :
    ∃ c, argmaxFirst f l = some c ∧ c ∈ l ∧ ∀ y ∈ l, f y ≤ f c := by
  cases l with
  | nil => exact absurd rfl hne
  | cons x t =>
    obtain ⟨c, hc, hmem, _, hall⟩ := foldl_argmaxStep_some f t x
    refine ⟨c, ?_, ?_, ?_⟩
    · simpa [argmaxFirst, argmaxStep] using hc
    · rcases hmem with h | h
      · exact h ▸ List.mem_cons_self x t
      · exact List.mem_cons_of_mem x h
    · intro y hy
      rcases List.mem_cons.mp hy with h | h
      · obtain ⟨_, _, hb, _⟩ := foldl_argmaxStep_some f t x
        subst h
        obtain ⟨c2, hc2, _, hbc, _⟩ := foldl_argmaxStep_some f t y
        rw [hc2] at hc
        cases hc
        exact hbc
      · exact hall y h

theorem argmaxFirst_eq_none_iff {α β : Type} [LinearOrder β] (f : α → β)
    (l : List α) : argmaxFirst f l = none ↔ l = [] := by
  constructor
  · intro h
    by_contra hne
    obtain ⟨c, hc, _, _⟩ := argmaxFirst_spec f l hne
    rw [h] at hc
    cases hc
  · intro h
    subst h
    rfl

theorem foldl_argmaxStep_stay {α β : Type} [LinearOrder β] (f : α → β)
    (l : List α) (b : α) (M : β) (hb : f b = M) (hub : ∀ y ∈ l, f y ≤ M) :
    l.foldl (argmaxStep f) (some b) = some b := by
  induction l with
  | nil => rfl
  | cons x t ih =>
    have hx : ¬ f b < f x := by
      rw [hb]
      exact not_lt.mpr (hub x (List.mem_cons_self x t))
    simp only [List.foldl_cons, argmaxStep, hx, if_false]
    exact ih (fun y hy => hub y (List.mem_cons_of_mem x hy))

theorem foldl_argmaxStep_filter {α β : Type} [LinearOrder β] (f : α → β)
    (t : List α) (b : α) (M : β) (hb : f b < M)
    (hub : ∀ y ∈ t, f y ≤ M) (hex : ∃ y ∈ t, f y = M) :
    t.foldl (argmaxStep f) (some b) =
      (t.filter (fun y => decide (f y = M))).head? := by
  induction t generalizing b with
  | nil =>
    obtain ⟨y, hy, _⟩ := hex
    cases hy
  | cons x t ih =>
    by_cases hx : f x = M
    · have hbx : f b < f x := by
        rw [hx]
        exact hb
      have hfeq : (x :: t).filter (fun y => decide (f y = M)) =
          x :: t.filter (fun y => decide (f y = M)) := by
        rw [List.filter_cons, if_pos (by simp [hx])]
      rw [hfeq, List.head?_cons, List.foldl_cons]
      show t.foldl (argmaxStep f) (if f b < f x then some x else some b) = some x
      rw [if_pos hbx]
      exact foldl_argmaxStep_stay f t x M hx
        (fun y hy => hub y (List.mem_cons_of_mem x hy))
    · have hxM : f x < M :=
        lt_of_le_of_ne (hub x (List.mem_cons_self x t)) hx
      have hex' : ∃ y ∈ t, f y = M := by
        obtain ⟨y, hy, hyM⟩ := hex
        rcases List.mem_cons.mp hy with h | h
        · exact absurd (h ▸ hyM) hx
        · exact ⟨y, h, hyM⟩
      have hub' : ∀ y ∈ t, f y ≤ M :=
        fun y hy => hub y (List.mem_cons_of_mem x hy)
      have hfilter : (x :: t).filter (fun y => decide (f y = M)) =
          t.filter (fun y => decide (f y = M)) := by
        simp [List.filter_cons, hx]
      rw [hfilter]
      simp only [List.foldl_cons, argmaxStep]
      by_cases hbx : f b < f x
      · rw [if_pos hbx]
        exact ih x hxM hub' hex'
      · rw [if_neg hbx]
        exact ih b hb hub' hex'

theorem argmaxFirst_eq_head_filter {α β : Type} [LinearOrder β] (f : α → β)
    (l : List α) (M : β) (hub : ∀ y ∈ l, f y ≤ M) (hex : ∃ y ∈ l, f y = M) :
    argmaxFirst f l = (l.filter (fun y => decide (f y = M))).head? := by
  cases l with
  | nil =>
    obtain ⟨y, hy, _⟩ := hex
    cases hy
  | cons x t =>
    by_cases hx : f x = M
    · have hfeq : (x :: t).filter (fun y => decide (f y = M)) =
          x :: t.filter (fun y => decide (f y = M)) := by
        rw [List.filter_cons, if_pos (by simp [hx])]
      rw [hfeq, List.head?_cons]
      show t.foldl (argmaxStep f) (some x) = some x
      exact foldl_argmaxStep_stay f t x M hx
        (fun y hy => hub y (List.mem_cons_of_mem x hy))
    · have hxM : f x < M :=
        lt_of_le_of_ne (hub x (List.mem_cons_self x t)) hx
      have hex' : ∃ y ∈ t, f y = M := by
        obtain ⟨y, hy, hyM⟩ := hex
        rcases List.mem_cons.mp hy with h | h
        · exact absurd (h ▸ hyM) hx
        · exact ⟨y, h, hyM⟩
      have hfilter : (x :: t).filter (fun y => decide (f y = M)) =
          t.filter (fun y => decide (f y = M)) := by
        simp [List.filter_cons, hx]
      rw [hfilter]
      show t.foldl (argmaxStep f) (some x) = _
      exact foldl_argmaxStep_filter f t x M hxM
        (fun y hy => hub y (List.mem_cons_of_mem x hy)) hex'

theorem argmaxFirst_mem {α β : Type} [LinearOrder β] (f : α → β) (l : List α)
    (c : α) (h : argmaxFirst f l = some c) : c ∈ l ∧ ∀ y ∈ l, f y ≤ f c := by
  have hne : l ≠ [] := by
    intro hnil
    subst hnil
    cases h
  obtain ⟨c2, hc2, hmem, hall⟩ := argmaxFirst_spec f l hne
  rw [h] at hc2
  cases hc2
  exact ⟨hmem, hall⟩

theorem mem_of_head?_eq_some {α : Type} {l : List α} {a : α}
    (h : l.head? = some a) : a ∈ l := by
  cases l with
  | nil => cases h
  | cons x t =>
    rw [List.head?_cons, Option.some.injEq] at h
    rw [h]
    exact List.mem_cons_self _ _

/-! ### Resolution lemmas for `getMessage` -/

theorem partialMatchesOf_message_mem (msgs : List Msg) (q : List Char)
    (s : Scored) (h : s ∈ partialMatchesOf msgs q) :
    s.message ∈ msgs ∧ s = scoreMessage q s.message ∧ 10 ≤ s.longestMatch := by
  have h1 : s ∈ msgs.map (scoreMessage q) := List.mem_of_mem_filter h
  have h2 := List.of_mem_filter h
  obtain ⟨m, hm, hsm⟩ := List.mem_map.mp h1
  subst hsm
  exact ⟨hm, rfl, by simpa using h2⟩

/-- Any record produced by `getMessage` is one of the stored records. -/
theorem getMessage_mem (msgs : List Msg) (id : List Char) (m : Msg)
    (h : getMessage msgs id = some m) : m ∈ msgs := by
  unfold getMessage at h
  split at h
  · cases h
  · simp only [] at h
    split at h
    · cases h
      exact List.mem_of_find?_eq_some (by assumption)
    · split at h
      · cases h
        exact List.mem_of_find?_eq_some (by assumption)
      · split at h
        · cases h
          rename_i best hbest
          exact (partialMatchesOf_message_mem _ _ _
            ((argmaxFirst_mem _ _ _ hbest).1)).1
        · split at h
          · exact List.mem_of_mem_filter (mem_of_head?_eq_some h)
          · split at h
            · exact List.mem_of_mem_filter ((argmaxFirst_mem _ _ _ h).1)
            · cases h

/-! ### Claim C2 — amended theorem -/

/-- C2 (amended): the consume operation guards only on the view-limit half
of the consumption invariant.  For the record it resolves: if
`maxViews ≠ null ∧ currentViews ≥ maxViews` it is returned unchanged and no
state is persisted; otherwise — even when the record is already consumed by
wall-clock expiry — `currentViews` is incremented by exactly one, the
updated record replaces every stored record with its id, it is among the
persisted records, and the key vault is untouched. -/
theorem incrementMessageViews_guarded_increment (st : StoreState)
    (uid : Option (List Char)) (id : List Char) (m : Msg)
    (h : getMessage st.messages id = some m) :
    (viewLimitReached m = true → incrementMessageViews st uid id = (some m, st)) ∧
    (viewLimitReached m = false →
      (incrementMessageViews st uid id).fst = some (bumpViews m) ∧
      (incrementMessageViews st uid id).snd.messages =
        st.messages.map (fun x => if x.id == m.id then bumpViews m else x) ∧
      bumpViews m ∈ (incrementMessageViews st uid id).snd.messages ∧
      (incrementMessageViews st uid id).snd.keys = st.keys) := by
  have hm : m ∈ st.messages := getMessage_mem _ _ _ h
  constructor
  · intro hv
    unfold incrementMessageViews
    rw [h]
    simp [hv]
  · intro hv
    have hrun : incrementMessageViews st uid id =
        (some (bumpViews m),
         ⟨st.messages.map (fun x =>
            if x.id == (bumpViews m).id then bumpViews m else x),
          (match uid with
           | some _ => st.userMessages.map (fun x =>
               if x.id == (bumpViews m).id then bumpViews m else x)
           | none => st.userMessages),
          st.keys⟩) := by
      unfold incrementMessageViews
      rw [h]
      simp [hv, updateMessage]
    rw [hrun]
    refine ⟨rfl, rfl, ?_, rfl⟩
    have hmem := List.mem_map_of_mem
      (fun x => if x.id == (bumpViews m).id then bumpViews m else x) hm
    simpa [bumpViews] using hmem

/-- C2 witness: a record below its view limit is resolved, incremented and
persisted. -/
theorem incrementMessageViews_guarded_increment_witness :
    getMessage stW2.messages msgW2.id = some msgW2 ∧
    viewLimitReached msgW2 = false ∧
    (incrementMessageViews stW2 none msgW2.id).fst = some (bumpViews msgW2) := by
  have h : getMessage stW2.messages msgW2.id = some msgW2 := by decide
  refine ⟨h, by decide, ?_⟩
  exact ((incrementMessageViews_guarded_increment stW2 none msgW2.id msgW2 h).2
    (by decide)).1

/-! ### Claim C10 — `saveMessage` stamps the owner -/

theorem upsertById_self_mem (msgs : List Msg) (m : Msg) :
    m ∈ upsertById msgs m := by
  unfold upsertById
  cases hf : msgs.findIdx? (fun x => x.id == m.id) with
  | none => simp
  | some i =>
    obtain ⟨hlt, _, _⟩ := List.findIdx?_eq_some_iff_getElem.mp hf
    exact List.mem_set msgs i (by simpa using hlt) m

theorem upsertById_subset (msgs : List Msg) (m r : Msg)
    (hr : r ∈ upsertById msgs m) : r = m ∨ r ∈ msgs := by
  unfold upsertById at hr
  cases hf : msgs.findIdx? (fun x => x.id == m.id) with
  | none =>
    rw [hf] at hr
    rcases List.mem_append.mp hr with h | h
    · exact Or.inr h
    · exact Or.inl (by simpa using h)
  | some i =>
    rw [hf] at hr
    exact (List.mem_or_eq_of_mem_set hr).symm

theorem upsertById_id_unique (msgs : List Msg) (m r : Msg)
    (hnd : msgs.Pairwise (fun a b => a.id ≠ b.id))
    (hr : r ∈ upsertById msgs m) (hid : r.id = m.id) : r = m := by
  unfold upsertById at hr
  cases hf : msgs.findIdx? (fun x => x.id == m.id) with
  | none =>
    rw [hf] at hr
    rcases List.mem_append.mp hr with h | h
    · have hnone := List.findIdx?_eq_none_iff.mp hf r h
      simp only [beq_iff_eq] at hnone
      exact absurd hid (by simpa using hnone)
    · simpa using h
  | some i =>
    rw [hf] at hr
    obtain ⟨hlt, hpi, _⟩ := List.findIdx?_eq_some_iff_getElem.mp hf
    obtain ⟨j, hj, hje⟩ := List.mem_iff_getElem.mp hr
    rw [List.length_set] at hj
    by_cases hji : j = i
    · subst hji
      rw [List.getElem_set_self] at hje
      exact hje.symm
    · rw [List.getElem_set_ne (fun hh => hji hh.symm)] at hje
      have hij : msgs[i].id = m.id := by simpa using hpi
      have hpair := List.pairwise_iff_getElem.mp hnd
      rcases Nat.lt_or_ge j i with hlt2 | hge
      · have := hpair j i hj hlt hlt2
        rw [hje] at this
        exact absurd (hid.trans hij.symm) this
      · have hlt3 : i < j := lt_of_le_of_ne hge (fun hh => hji hh.symm)
        have := hpair i j hlt hj hlt3
        rw [hje] at this
        exact absurd (hij.trans hid.symm) this

/-- C10: with a signed-in user, `saveMessage` overwrites the record's
`ownerId` with the current user id before persisting — also when upserting
over a stored record with a different owner.  The save succeeds, the stamped
record is persisted, every persisted record carrying this id is exactly the
stamped record, and every other persisted record was already stored. -/
theorem saveMessage_stamps_owner (st : StoreState) (u : List Char)
    (urlHash : Option (List Char)) (message : Msg)
    (hid : message.id ≠ []) (hct : message.encryptedContent ≠ [])
    (hnd : st.messages.Pairwise (fun a b => a.id ≠ b.id)) :
    (saveMessage st (some u) urlHash message).fst = true ∧
    { message with ownerId := some u } ∈
      (saveMessage st (some u) urlHash message).snd.messages ∧
    (∀ r ∈ (saveMessage st (some u) urlHash message).snd.messages,
        r.id = message.id → r = { message with ownerId := some u }) ∧
    (∀ r ∈ (saveMessage st (some u) urlHash message).snd.messages,
        r = { message with ownerId := some u } ∨ r ∈ st.messages) := by
  have hguard2 : ¬ (upsertById st.messages { message with ownerId := some u } = [] ∧
      0 < (upsertById st.messages { message with ownerId := some u }).length) := by
    rintro ⟨h1, h2⟩
    rw [h1] at h2
    exact absurd h2 (by simp)
  have hrun : saveMessage st (some u) urlHash message =
      (true,
       ⟨upsertById st.messages { message with ownerId := some u },
        upsertById st.userMessages { message with ownerId := some u },
        (match urlHash with
         | some h =>
           if 1 < h.length then
             storeEncryptionKeyOn st.keys message.id (h.drop 1)
           else st.keys
         | none => st.keys)⟩) := by
    unfold saveMessage
    rw [if_neg (by simp [hid, hct]), if_neg hguard2]
  rw [hrun]
  refine ⟨rfl, upsertById_self_mem _ _, ?_, ?_⟩
  · intro r hr hrid
    exact upsertById_id_unique st.messages _ r hnd hr hrid
  · intro r hr
    exact upsertById_subset st.messages _ r hr

/-- C10 witness: upserting a record whose stored owner differs leaves the
persisted record owned by the current user. -/
theorem saveMessage_stamps_owner_witness :
    msgW10.ownerId = some "olduser".toList ∧
    ({ msgW10 with ownerId := some "newuser".toList } ∈
      (saveMessage stW10 (some "newuser".toList) none msgW10).snd.messages) := by
  refine ⟨rfl, ?_⟩
  exact (saveMessage_stamps_owner stW10 "newuser".toList none msgW10
    (by decide) (by decide)
    (List.Pairwise.cons (by simp) List.Pairwise.nil)).2.1

/-! ### Claim C8 — amended theorem -/

theorem removeKeyPartialOn_snd (ks : List (List Char × List Char))
    (id : List Char) :
    (removeKeyPartialOn ks id).snd =
      ks.filter (fun e => !(jsIncludes e.fst id || jsIncludes id e.fst)) := by
  unfold removeKeyPartialOn
  simp only []
  split
  · apply List.filter_congr
    intro e he
    congr 1
    rw [Bool.eq_iff_iff]
    constructor
    · intro hc
      exact (List.mem_filter.mp (List.elem_iff.mp hc)).2
    · intro hpe
      exact List.elem_iff.mpr
        (List.mem_filter.mpr ⟨List.mem_map_of_mem Prod.fst he, hpe⟩)
  · rename_i hlen
    have hempty : (ks.map Prod.fst).filter
        (fun kid => jsIncludes kid id || jsIncludes id kid) = [] := by
      cases h : (ks.map Prod.fst).filter
          (fun kid => jsIncludes kid id || jsIncludes id kid) with
      | nil => rfl
      | cons a t =>
        exfalso
        apply hlen
        rw [h]
        simp
    symm
    rw [List.filter_eq_self]
    intro e he
    have hmem : e.fst ∈ ks.map Prod.fst := List.mem_map_of_mem Prod.fst he
    have hnp : ¬ ((jsIncludes e.fst id || jsIncludes id e.fst) = true) := by
      intro hpe
      have : e.fst ∈ (ks.map Prod.fst).filter
          (fun kid => jsIncludes kid id || jsIncludes id kid) :=
        List.mem_filter.mpr ⟨hmem, hpe⟩
      rw [hempty] at this
      cases this
    have hf : (jsIncludes e.fst id || jsIncludes id e.fst) = false :=
      Bool.eq_false_iff.mpr hnp
    simp [hf]

/-- C8 (amended): `deleteMessage(id)` removes exactly the records whose id
equals `id` from the message store, leaving all others unchanged; the key
vault cascade removes only the entry stored under the exact id when such a
(non-empty) entry exists — entries matching merely by the partial rule
survive in that case — and removes every partial-rule match only when no
exact entry exists. -/
theorem deleteMessage_spec (st : StoreState) (uid : Option (List Char))
    (id : List Char) (hid : id ≠ []) :
    (deleteMessage st uid id).snd.messages =
      st.messages.filter (fun m => !(m.id == id)) ∧
    (∀ v, keysLookup st.keys id = some v → v ≠ [] →
        (deleteMessage st uid id).snd.keys = keysErase st.keys id) ∧
    (keysLookup st.keys id = none →
        (deleteMessage st uid id).snd.keys =
          st.keys.filter (fun e => !(jsIncludes e.fst id || jsIncludes id e.fst))) := by
  refine ⟨rfl, ?_, ?_⟩
  · intro v hv hvne
    show (removeEncryptionKeyOn st.keys id).snd = _
    unfold removeEncryptionKeyOn
    rw [if_neg hid, hv]
    simp only []
    rw [if_pos hvne]
  · intro hnone
    show (removeEncryptionKeyOn st.keys id).snd = _
    unfold removeEncryptionKeyOn
    rw [if_neg hid, hnone]
    exact removeKeyPartialOn_snd st.keys id

/-- C8 witness: in the two-entry vault created by `storeEncryptionKey` for a
24-character id, deleting the message removes only the exact entry. -/
theorem deleteMessage_spec_witness :
    keysLookup stC8.keys fullIdC8 = some keyValC8 ∧
    (deleteMessage stC8 none fullIdC8).snd.keys = keysErase stC8.keys fullIdC8 := by
  have h : keysLookup stC8.keys fullIdC8 = some keyValC8 := by decide
  refine ⟨h, ?_⟩
  exact (deleteMessage_spec stC8 none fullIdC8 (by decide)).2.1 keyValC8 h (by decide)

/-! ### Claim C5 — amended theorem -/

/-- C5 (amended): past the exact, case-insensitive and fixed-prefix tiers,
the live-record restriction is applied only when more than one partial
candidate exists.  A single partial candidate's key is returned with no
live-record check at all, and when several candidates exist but none
corresponds to a stored record, the first candidate's key is still
returned — so a key belonging solely to a stale or orphaned entry can be
returned. -/
theorem getEncryptionKey_no_live_restriction
    (ks : List (List Char × List Char)) (msgs : List Msg)
    (messageId kid : List Char)
    (hne : messageId ≠ []) (htrim : jsTrim messageId = messageId)
    (hexact : keysLookup ks messageId = none)
    (hci : (ks.map Prod.fst).find? (fun k => jsLower k == jsLower messageId) = none)
    (hshort : keysLookup ks (jsSubstring messageId 0 20) = none) :
    ((ks.map Prod.fst).filter (fun k => keyPartialMatch k messageId) = [kid] →
        getEncryptionKey ks msgs messageId = keysLookup ks kid) ∧
    (∀ rest, (ks.map Prod.fst).filter (fun k => keyPartialMatch k messageId) =
          kid :: rest → rest ≠ [] →
        (∀ k2 ∈ (ks.map Prod.fst).filter (fun k => keyPartialMatch k messageId),
          ((msgs.map (fun m => m.id)).any
            (fun mid => jsIncludes mid k2 || jsIncludes k2 mid)) = false) →
        getEncryptionKey ks msgs messageId = keysLookup ks kid) := by
  have hred : getEncryptionKey ks msgs messageId =
      getEncryptionKeyLate ks msgs messageId := by
    unfold getEncryptionKey
    rw [if_neg hne]
    simp only []
    rw [htrim, hexact, hci]
  rw [hred]
  unfold getEncryptionKeyLate
  simp only []
  rw [hshort]
  constructor
  · intro hpart
    rw [hpart]
  · intro rest hpart hrest hnolive
    cases rest with
    | nil => exact absurd rfl hrest
    | cons r2 rest2 =>
      rw [hpart]
      simp only []
      have hfilter : (kid :: r2 :: rest2).filter (fun k2 =>
          (msgs.map (fun m => m.id)).any
            (fun mid => jsIncludes mid k2 || jsIncludes k2 mid)) = [] := by
        rw [List.filter_eq_nil_iff]
        intro a ha
        rw [← hpart] at ha
        simp [hnolive a ha]
      rw [hfilter]

/-- C5 witness: the single-partial-candidate branch applied to the orphaned
vault of the counterexample. -/
theorem getEncryptionKey_no_live_restriction_witness :
    ([(kidC5, keyValC5)].map Prod.fst).filter
      (fun k => keyPartialMatch k queryC5) = [kidC5] ∧
    getEncryptionKey [(kidC5, keyValC5)] [] queryC5 =
      keysLookup [(kidC5, keyValC5)] kidC5 := by
  refine ⟨by decide, ?_⟩
  exact (getEncryptionKey_no_live_restriction [(kidC5, keyValC5)] [] queryC5 kidC5
    (by decide) (by decide) (by decide) (by decide) (by decide)).1 (by decide)

/-! ### Claim C4 — amended theorem -/

/-- C4 (amended): the invalid-ciphertext pre-check fires below 28 decoded
bytes (room for the 16-byte salt and 12-byte nonce only; no room for a tag
is required), not below 44; such inputs fail before any key derivation or
AEAD call.  Inputs decoding to between 28 and 43 bytes instead proceed to
key derivation and AEAD decryption (see the counterexample). -/
theorem decryptMessage_tooShort (P : CryptoPrims) (s : List Char)
    (key bs : List Nat) (hdec : b64UrlDecode (jsTrim s) = some bs)
    (hlen : bs.length < 28) :
    decryptMessage P s key = Except.error DecryptError.tooShort := by
  unfold decryptMessage
  simp only []
  rw [hdec]
  simp only []
  rw [if_pos hlen]

/-- C4 witness: 24 characters `A` decode to 18 zero bytes and are rejected
by the too-short pre-check. -/
theorem decryptMessage_tooShort_witness :
    b64UrlDecode (jsTrim (List.replicate 24 'A')) = some (List.replicate 18 0) ∧
    decryptMessage toyPrims (List.replicate 24 'A') [] =
      Except.error DecryptError.tooShort := by
  have h : b64UrlDecode (jsTrim (List.replicate 24 'A')) =
      some (List.replicate 18 0) := by decide
  refine ⟨h, ?_⟩
  exact decryptMessage_tooShort toyPrims (List.replicate 24 'A') [] _ h (by decide)

/-! ### Substring analysis for the fuzzy-match scores -/

theorem jsIncludes_eq_true_iff (hay needle : List Char) :
    jsIncludes hay needle = true ↔ needle <:+: hay := by
  induction hay with
  | nil =>
    constructor
    · intro h
      unfold jsIncludes at h
      split at h
      · rename_i hp
        rw [List.infix_nil]
        exact List.prefix_nil.mp (List.isPrefixOf_iff_prefix.mp hp)
      · cases h
    · intro h
      rw [List.infix_nil] at h
      subst h
      rfl
  | cons c t ih =>
    constructor
    · intro h
      unfold jsIncludes at h
      split at h
      · rename_i hp
        exact (List.isPrefixOf_iff_prefix.mp hp).isInfix
      · exact List.infix_cons_iff.mpr (Or.inr (ih.mp h))
    · intro h
      unfold jsIncludes
      split
      · rfl
      · rename_i hp
        rcases List.infix_cons_iff.mp h with hpre | hinf
        · exact absurd (List.isPrefixOf_iff_prefix.mpr hpre) hp
        · exact ih.mpr hinf

theorem jsSubstring_length_of_le (s : List Char) (i len : Nat)
    (h : i + len ≤ s.length) : (jsSubstring s i (i + len)).length = len := by
  unfold jsSubstring
  rw [List.length_take, List.length_drop]
  omega

theorem scanLongest_spec (mid q : List Char) :
    scanLongest mid q = 0 ∨
      (10 ≤ scanLongest mid q ∧
       ∃ i len, i + len ≤ mid.length ∧ 10 ≤ len ∧ scanLongest mid q = len ∧
         jsIncludes q (jsSubstring mid i (i + len)) = true) := by
  let P : Nat → Prop := fun n => n = 0 ∨
    (10 ≤ n ∧ ∃ i len, i + len ≤ mid.length ∧ 10 ≤ len ∧ n = len ∧
      jsIncludes q (jsSubstring mid i (i + len)) = true)
  suffices h : P (scanLongest mid q) by exact h
  unfold scanLongest
  apply List.foldlRecOn (motive := P)
  · exact Or.inl rfl
  · intro acc hacc i hi
    apply List.foldlRecOn (motive := P)
    · exact hacc
    · intro acc2 hacc2 len hlen
      by_cases hcond :
          (jsIncludes q (jsSubstring mid i (i + len)) && decide (acc2 < len)) = true
      · rw [if_pos hcond]
        right
        have hi' : i < mid.length - 10 := List.mem_range.mp hi
        obtain ⟨k, hk, hkeq⟩ := List.mem_range'.mp hlen
        have hcond1 : jsIncludes q (jsSubstring mid i (i + len)) = true := by
          have hc := hcond
          simp only [Bool.and_eq_true] at hc
          exact hc.1
        refine ⟨by omega, i, len, by omega, by omega, rfl, hcond1⟩
      · rw [if_neg hcond]
        exact hacc2

theorem specShares10_intro (a b : List Char) (i : Nat) (hi : i + 10 ≤ a.length)
    (hinc : jsIncludes b (jsSubstring a i (i + 10)) = true) :
    specShares10 a b = true := by
  unfold specShares10
  rw [List.any_eq_true]
  exact ⟨i, List.mem_range.mpr (by omega), hinc⟩

theorem longestMatchOf_le (mid q : List Char) :
    longestMatchOf mid q ≤ q.length := by
  unfold longestMatchOf
  split
  · exact le_refl _
  · split
    · rename_i h2
      exact ((jsIncludes_eq_true_iff q mid).mp h2).length_le
    · rcases scanLongest_spec mid q with h0 | ⟨_, i, len, hil, _, heq, hinc⟩
      · rw [h0]
        exact Nat.zero_le _
      · rw [heq]
        have hlen := ((jsIncludes_eq_true_iff q _).mp hinc).length_le
        rw [jsSubstring_length_of_le mid i len hil] at hlen
        exact hlen

theorem longestMatchOf_shares (mid q : List Char)
    (h : 10 ≤ longestMatchOf mid q) : specShares10Either mid q = true := by
  unfold specShares10Either
  rw [Bool.or_eq_true]
  unfold longestMatchOf at h
  by_cases h1 : jsIncludes mid q = true
  · rw [if_pos h1] at h
    right
    apply specShares10_intro q mid 0 (by omega)
    apply (jsIncludes_eq_true_iff mid _).mpr
    have hq : q <:+: mid := (jsIncludes_eq_true_iff mid q).mp h1
    have hpre : jsSubstring q 0 10 <+: q := by
      unfold jsSubstring
      simpa using List.take_prefix 10 q
    exact hpre.isInfix.trans hq
  · rw [if_neg h1] at h
    by_cases h2 : jsIncludes q mid = true
    · rw [if_pos h2] at h
      left
      apply specShares10_intro mid q 0 (by omega)
      apply (jsIncludes_eq_true_iff q _).mpr
      have hm : mid <:+: q := (jsIncludes_eq_true_iff q mid).mp h2
      have hpre : jsSubstring mid 0 10 <+: mid := by
        unfold jsSubstring
        simpa using List.take_prefix 10 mid
      exact hpre.isInfix.trans hm
    · rw [if_neg h2] at h
      left
      rcases scanLongest_spec mid q with h0 | ⟨_, i, len, hil, hl10, heq, hinc⟩
      · rw [h0] at h
        omega
      · apply specShares10_intro mid q i (by omega)
        have hw : jsSubstring mid i (i + len) <:+: q :=
          (jsIncludes_eq_true_iff q _).mp hinc
        have h10 : jsSubstring mid i (i + 10) <+: jsSubstring mid i (i + len) := by
          unfold jsSubstring
          have e1 : (i + 10) - i = 10 := by omega
          have e2 : (i + len) - i = len := by omega
          rw [e1, e2]
          exact List.take_prefix_take_left _ hl10
        exact (jsIncludes_eq_true_iff q _).mpr (h10.isInfix.trans hw)

theorem getMessage_reduce (msgs : List Msg) (q : List Char)
    (h0 : q ≠ []) (ht : jsTrim q = q)
    (hex : ∀ m ∈ msgs, ¬ (m.id = q))
    (hci : ∀ m ∈ msgs, ¬ (jsLower m.id = jsLower q)) :
    getMessage msgs q =
      (match argmaxFirst (fun s => s.confidence) (partialMatchesOf msgs q) with
       | some best => some best.message
       | none =>
         if (truncatedMatchesOf msgs q).length = 1 then
           (truncatedMatchesOf msgs q).head?
         else if 1 < (truncatedMatchesOf msgs q).length then
           argmaxFirst (fun m => m.createdAt) (truncatedMatchesOf msgs q)
         else none) := by
  unfold getMessage
  rw [if_neg h0]
  simp only []
  rw [ht]
  have hf1 : msgs.find? (fun m => m.id == q) = none := by
    rw [List.find?_eq_none]
    intro m hm
    simpa using hex m hm
  have hf2 : msgs.find? (fun m => jsLower m.id == jsLower q) = none := by
    rw [List.find?_eq_none]
    intro m hm
    simpa using hci m hm
  rw [hf1, hf2]

/-! ### Claim C6 — amended theorem -/

/-- C6 (amended): with no exact and no case-insensitive match, `getMessage`
returns no record unless some stored id shares a 10-character substring with
the query (as found by the code's scan) or a stored id agrees with the query
on one side's first 20 characters (the truncation tier).  When a returned
record comes from the partial tier it carries a true shared 10-character
substring and maximises the code's confidence score (longest found match
plus the first-10-characters prefix bonus) over all partial candidates;
otherwise the partial tier is empty and the record comes from the
truncation tier. -/
theorem getMessage_fuzzy_resolution (msgs : List Msg) (q : List Char)
    (h0 : q ≠ []) (ht : jsTrim q = q)
    (hex : ∀ m ∈ msgs, ¬ (m.id = q))
    (hci : ∀ m ∈ msgs, ¬ (jsLower m.id = jsLower q)) :
    ((∀ m ∈ msgs, specShares10Either m.id q = false) →
     (∀ m ∈ msgs, (jsStartsWith m.id (jsSubstring q 0 20) ||
                   jsStartsWith q (jsSubstring m.id 0 20)) = false) →
     getMessage msgs q = none) ∧
    (∀ r, getMessage msgs q = some r →
      (∃ s, s ∈ partialMatchesOf msgs q ∧ s.message = r ∧
            10 ≤ s.longestMatch ∧ specShares10Either r.id q = true ∧
            ∀ s2 ∈ partialMatchesOf msgs q, s2.confidence ≤ s.confidence) ∨
      (partialMatchesOf msgs q = [] ∧ r ∈ truncatedMatchesOf msgs q)) := by
  have hred := getMessage_reduce msgs q h0 ht hex hci
  constructor
  · intro hnoshare hnotrunc
    have hpempty : partialMatchesOf msgs q = [] := by
      unfold partialMatchesOf
      rw [List.filter_eq_nil_iff]
      intro s hs
      obtain ⟨m, hm, hsm⟩ := List.mem_map.mp hs
      subst hsm
      simp only [scoreMessage, decide_eq_true_eq]
      intro h10
      have hsh := longestMatchOf_shares m.id q h10
      rw [hnoshare m hm] at hsh
      cases hsh
    have htempty : truncatedMatchesOf msgs q = [] := by
      unfold truncatedMatchesOf
      rw [List.filter_eq_nil_iff]
      intro m hm
      rw [hnotrunc m hm]
      simp
    rw [hred, hpempty, htempty]
    rfl
  · intro r hr
    rw [hred] at hr
    cases hb : argmaxFirst (fun s => s.confidence) (partialMatchesOf msgs q) with
    | some best =>
      rw [hb] at hr
      simp only [] at hr
      rw [Option.some.injEq] at hr
      left
      obtain ⟨hmem, hmax⟩ := argmaxFirst_mem _ _ _ hb
      obtain ⟨hmm, hscore, h10⟩ := partialMatchesOf_message_mem msgs q best hmem
      refine ⟨best, hmem, hr, h10, ?_, hmax⟩
      have hlm : best.longestMatch = longestMatchOf best.message.id q := by
        conv_lhs => rw [hscore]
        rfl
      rw [← hr]
      apply longestMatchOf_shares
      rw [← hlm]
      exact h10
    | none =>
      rw [hb] at hr
      simp only [] at hr
      right
      refine ⟨(argmaxFirst_eq_none_iff _ _).mp hb, ?_⟩
      split at hr
      · exact mem_of_head?_eq_some hr
      · split at hr
        · exact (argmaxFirst_mem _ _ _ hr).1
        · cases hr

/-- C6 witness: the counterexample store exercises the truncation-tier arm
of the resolution theorem. -/
theorem getMessage_fuzzy_resolution_witness :
    getMessage [msgC6] queryC6 = some msgC6 ∧
    partialMatchesOf [msgC6] queryC6 = [] ∧
    msgC6 ∈ truncatedMatchesOf [msgC6] queryC6 := by
  have h : getMessage [msgC6] queryC6 = some msgC6 := by decide
  refine ⟨h, ?_⟩
  have hres := (getMessage_fuzzy_resolution [msgC6] queryC6 (by decide) (by decide)
    (by decide) (by decide)).2 msgC6 h
  rcases hres with ⟨s, hs, _, _, _, _⟩ | hok
  · exfalso
    have hempty : partialMatchesOf [msgC6] queryC6 = [] := by decide
    rw [hempty] at hs
    cases hs
  · exact hok

/-! ### Claim C7 — amended theorem -/

theorem confidenceOf_le (mid q : List Char) :
    confidenceOf mid q ≤ q.length + 10 := by
  unfold confidenceOf
  have := longestMatchOf_le mid q
  split <;> omega

theorem confidenceOf_of_prefix (mid q : List Char)
    (hp : q <+: mid) : confidenceOf mid q = q.length + 10 := by
  have h1 : jsIncludes mid q = true := (jsIncludes_eq_true_iff mid q).mpr hp.isInfix
  have hb : beginningMatchOf mid q = true := by
    unfold beginningMatchOf jsStartsWith
    rw [Bool.or_eq_true]
    left
    apply List.isPrefixOf_iff_prefix.mpr
    have hpre : jsSubstring q 0 10 <+: q := by
      unfold jsSubstring
      simpa using List.take_prefix 10 q
    exact hpre.trans hp
  unfold confidenceOf longestMatchOf
  rw [if_pos h1, hb]
  simp

/-- C7 (amended): called with the first 20 characters of a stored id (no
exact or case-insensitive match present), `getMessage` resolves through the
partial-match tier: every holder of that prefix scores the maximal
confidence 30, no stored id can score more, and the record returned is the
first in storage order among those scoring 30.  In particular, when exactly
one stored id scores 30 — e.g. a unique prefix holder with no competing
30-scorer — that record is returned; when several ids share the prefix the
earliest-stored one is returned, not the one with the latest `createdAt`. -/
theorem getMessage_head20_query (msgs : List Msg) (m0 : Msg)
    (q : List Char) (hm0 : m0 ∈ msgs) (hq : q = m0.id.take 20)
    (hlen : 20 ≤ m0.id.length) (ht : jsTrim q = q)
    (hex : ∀ m ∈ msgs, ¬ (m.id = q))
    (hci : ∀ m ∈ msgs, ¬ (jsLower m.id = jsLower q)) :
    getMessage msgs q =
      (msgs.filter (fun m => decide (confidenceOf m.id q = 30))).head? ∧
    (∀ m ∈ msgs, confidenceOf m.id q ≤ 30) ∧
    (∀ m ∈ msgs, jsStartsWith m.id q = true → confidenceOf m.id q = 30) := by
  have hqlen : q.length = 20 := by
    rw [hq, List.length_take]
    omega
  have h0 : q ≠ [] := by
    intro h
    rw [h] at hqlen
    cases hqlen
  have hub : ∀ m ∈ msgs, confidenceOf m.id q ≤ 30 := by
    intro m _
    have := confidenceOf_le m.id q
    omega
  have hpref : ∀ m ∈ msgs, jsStartsWith m.id q = true →
      confidenceOf m.id q = 30 := by
    intro m hm hsw
    have hp : q <+: m.id := List.isPrefixOf_iff_prefix.mp hsw
    have := confidenceOf_of_prefix m.id q hp
    omega
  have hsw0 : jsStartsWith m0.id q = true := by
    show q.isPrefixOf m0.id = true
    apply List.isPrefixOf_iff_prefix.mpr
    rw [hq]
    exact List.take_prefix 20 m0.id
  have hconf0 : confidenceOf m0.id q = 30 := hpref m0 hm0 hsw0
  have hub' : ∀ s ∈ partialMatchesOf msgs q, s.confidence ≤ 30 := by
    intro s hs
    obtain ⟨hmm, hscore, _⟩ := partialMatchesOf_message_mem msgs q s hs
    have heq : s.confidence = confidenceOf s.message.id q := by
      conv_lhs => rw [hscore]
      rfl
    rw [heq]
    exact hub _ hmm
  have h10m0 : 10 ≤ longestMatchOf m0.id q := by
    have h1 : jsIncludes m0.id q = true :=
      (jsIncludes_eq_true_iff _ _).mpr (List.isPrefixOf_iff_prefix.mp hsw0).isInfix
    unfold longestMatchOf
    rw [if_pos h1]
    omega
  have hs0mem : scoreMessage q m0 ∈ partialMatchesOf msgs q := by
    unfold partialMatchesOf
    apply List.mem_filter.mpr
    refine ⟨List.mem_map_of_mem _ hm0, ?_⟩
    simp only [scoreMessage, decide_eq_true_eq]
    exact h10m0
  have hs0conf : (scoreMessage q m0).confidence = 30 := hconf0
  have hred := getMessage_reduce msgs q h0 ht hex hci
  have hhead := argmaxFirst_eq_head_filter (fun s : Scored => s.confidence)
    (partialMatchesOf msgs q) 30 hub' ⟨scoreMessage q m0, hs0mem, hs0conf⟩
  have hcongr : ∀ s ∈ msgs.map (scoreMessage q),
      (decide (s.confidence = 30) && decide (10 ≤ s.longestMatch)) =
        decide (s.confidence = 30) := by
    intro s hs
    obtain ⟨m, hm, hsm⟩ := List.mem_map.mp hs
    subst hsm
    by_cases hc : (scoreMessage q m).confidence = 30
    · have hlm : 10 ≤ (scoreMessage q m).longestMatch := by
        have hc2 : longestMatchOf m.id q +
            (if beginningMatchOf m.id q then 10 else 0) = 30 := hc
        show 10 ≤ longestMatchOf m.id q
        split at hc2 <;> omega
      simp [hc, hlm]
    · simp [hc]
  have hchain : (partialMatchesOf msgs q).filter
        (fun s => decide (s.confidence = 30)) =
      (msgs.filter (fun m => decide (confidenceOf m.id q = 30))).map
        (scoreMessage q) := by
    unfold partialMatchesOf
    rw [List.filter_filter, List.filter_congr hcongr, List.filter_map]
    rfl
  refine ⟨?_, hub, hpref⟩
  rw [hred, hhead]
  simp only []
  rw [hchain, List.head?_map]
  cases hh : (msgs.filter (fun m => decide (confidenceOf m.id q = 30))).head? with
  | some m1 => rfl
  | none =>
    exfalso
    have hm0f : m0 ∈ msgs.filter (fun m => decide (confidenceOf m.id q = 30)) :=
      List.mem_filter.mpr ⟨hm0, by simp [hconf0]⟩
    rw [List.head?_eq_none_iff] at hh
    rw [hh] at hm0f
    cases hm0f

/-- C7 witness: the two-record counterexample store instantiates the
theorem; the first-stored prefix holder is returned. -/
theorem getMessage_head20_query_witness :
    getMessage [msgA1, msgA2] queryC7 =
      (([msgA1, msgA2]).filter
        (fun m => decide (confidenceOf m.id queryC7 = 30))).head? ∧
    confidenceOf msgA1.id queryC7 = 30 := by
  refine ⟨?_, by decide⟩
  exact (getMessage_head20_query [msgA1, msgA2] msgA2 queryC7
    (by decide) (by decide) (by decide) (by decide) (by decide) (by decide)).1

/-! ### Base64 round-trip -/

theorem b64DecChar_b64EncChar (s : Nat) (h : s < 64) :
    b64DecChar (b64EncChar s) = some s := by
  have hall : ∀ k : Fin 64, b64DecChar (b64EncChar k.val) = some k.val := by decide
  exact hall ⟨s, h⟩

theorem b64EncChar_facts (s : Nat) (h : s < 64) :
    b64EncChar s ≠ '=' ∧ b64EncChar s ≠ '-' ∧ b64EncChar s ≠ '_' ∧
      isJsSpace (b64EncChar s) = false := by
  have hall : ∀ k : Fin 64, b64EncChar k.val ≠ '=' ∧ b64EncChar k.val ≠ '-' ∧
      b64EncChar k.val ≠ '_' ∧ isJsSpace (b64EncChar k.val) = false := by decide
  exact hall ⟨s, h⟩

theorem atobB_btoaB : ∀ (bs : List Nat), (∀ b ∈ bs, b < 256) →
    atobB (btoaB bs) = some bs
  | [], _ => rfl
  | [b1], h => by
    have hb1 : b1 < 256 := h b1 (by simp)
    have d1 := b64DecChar_b64EncChar (b1 / 4) (by omega)
    have d2 := b64DecChar_b64EncChar (b1 % 4 * 16) (by omega)
    simp only [btoaB, atobB, d1, d2]
    simp
    omega
  | [b1, b2], h => by
    have hb1 : b1 < 256 := h b1 (by simp)
    have hb2 : b2 < 256 := h b2 (by simp)
    have d1 := b64DecChar_b64EncChar (b1 / 4) (by omega)
    have d2 := b64DecChar_b64EncChar (b1 % 4 * 16 + b2 / 16) (by omega)
    have d3 := b64DecChar_b64EncChar (b2 % 16 * 4) (by omega)
    have hne3 := (b64EncChar_facts (b2 % 16 * 4) (by omega)).1
    simp only [btoaB, atobB, d1, d2, d3]
    simp [hne3]
    omega
  | b1 :: b2 :: b3 :: r1 :: rest, h => by
    have hb1 : b1 < 256 := h b1 (by simp)
    have hb2 : b2 < 256 := h b2 (by simp)
    have hb3 : b3 < 256 := h b3 (by simp)
    have ih := atobB_btoaB (r1 :: rest) (fun b hb => h b (by simp [hb]))
    have d1 := b64DecChar_b64EncChar (b1 / 4) (by omega)
    have d2 := b64DecChar_b64EncChar (b1 % 4 * 16 + b2 / 16) (by omega)
    have d3 := b64DecChar_b64EncChar (b2 % 16 * 4 + b3 / 64) (by omega)
    have d4 := b64DecChar_b64EncChar (b3 % 64) (by omega)
    have hne3 := (b64EncChar_facts (b2 % 16 * 4 + b3 / 64) (by omega)).1
    have hne4 := (b64EncChar_facts (b3 % 64) (by omega)).1
    simp only [btoaB, atobB, d1, d2, d3, d4]
    simp [hne3, hne4, ih]
    omega
  | b1 :: b2 :: b3 :: [], h => by
    have hb1 : b1 < 256 := h b1 (by simp)
    have hb2 : b2 < 256 := h b2 (by simp)
    have hb3 : b3 < 256 := h b3 (by simp)
    have d1 := b64DecChar_b64EncChar (b1 / 4) (by omega)
    have d2 := b64DecChar_b64EncChar (b1 % 4 * 16 + b2 / 16) (by omega)
    have d3 := b64DecChar_b64EncChar (b2 % 16 * 4 + b3 / 64) (by omega)
    have d4 := b64DecChar_b64EncChar (b3 % 64) (by omega)
    have hne3 := (b64EncChar_facts (b2 % 16 * 4 + b3 / 64) (by omega)).1
    have hne4 := (b64EncChar_facts (b3 % 64) (by omega)).1
    simp only [btoaB, atobB, d1, d2, d3, d4]
    simp [hne3, hne4]
    omega

theorem btoaB_shape : ∀ (bs : List Nat), (∀ b ∈ bs, b < 256) →
    ∃ core pad, btoaB bs = core ++ List.replicate pad '=' ∧ pad ≤ 2 ∧
      (core.length + pad) % 4 = 0 ∧
      ∀ c ∈ core, c ≠ '=' ∧ c ≠ '-' ∧ c ≠ '_' ∧ isJsSpace c = false
  | [], _ => ⟨[], 0, rfl, by omega, by simp, by simp⟩
  | [b1], h => by
    have hb1 : b1 < 256 := h b1 (by simp)
    refine ⟨[b64EncChar (b1 / 4), b64EncChar (b1 % 4 * 16)], 2, rfl, by omega,
      by simp, ?_⟩
    intro c hc
    rcases List.mem_cons.mp hc with hc1 | hc2
    · exact hc1 ▸ b64EncChar_facts _ (by omega)
    · rcases List.mem_cons.mp hc2 with hc3 | hc4
      · exact hc3 ▸ b64EncChar_facts _ (by omega)
      · cases hc4
  | [b1, b2], h => by
    have hb1 : b1 < 256 := h b1 (by simp)
    have hb2 : b2 < 256 := h b2 (by simp)
    refine ⟨[b64EncChar (b1 / 4), b64EncChar (b1 % 4 * 16 + b2 / 16),
      b64EncChar (b2 % 16 * 4)], 1, rfl, by omega, by simp, ?_⟩
    intro c hc
    rcases List.mem_cons.mp hc with hc1 | hc2
    · exact hc1 ▸ b64EncChar_facts _ (by omega)
    · rcases List.mem_cons.mp hc2 with hc3 | hc4
      · exact hc3 ▸ b64EncChar_facts _ (by omega)
      · rcases List.mem_cons.mp hc4 with hc5 | hc6
        · exact hc5 ▸ b64EncChar_facts _ (by omega)
        · cases hc6
  | b1 :: b2 :: b3 :: rest, h => by
    have hb1 : b1 < 256 := h b1 (by simp)
    have hb2 : b2 < 256 := h b2 (by simp)
    have hb3 : b3 < 256 := h b3 (by simp)
    obtain ⟨core, pad, hsh, hp2, hmod, hcf⟩ :=
      btoaB_shape rest (fun b hb => h b (by simp [hb]))
    refine ⟨b64EncChar (b1 / 4) :: b64EncChar (b1 % 4 * 16 + b2 / 16) ::
      b64EncChar (b2 % 16 * 4 + b3 / 64) :: b64EncChar (b3 % 64) :: core, pad,
      ?_, hp2, ?_, ?_⟩
    · show btoaB (b1 :: b2 :: b3 :: rest) = _
      simp only [btoaB, hsh, List.cons_append]
    · simp only [List.length_cons]
      omega
    · intro c hc
      rcases List.mem_cons.mp hc with hc1 | hc2
      · exact hc1 ▸ b64EncChar_facts _ (by omega)
      · rcases List.mem_cons.mp hc2 with hc3 | hc4
        · exact hc3 ▸ b64EncChar_facts _ (by omega)
        · rcases List.mem_cons.mp hc4 with hc5 | hc6
          · exact hc5 ▸ b64EncChar_facts _ (by omega)
          · rcases List.mem_cons.mp hc6 with hc7 | hc8
            · exact hc7 ▸ b64EncChar_facts _ (by omega)
            · exact hcf c hc8

theorem stripEq_append_replicate (core : List Char) (pad : Nat)
    (hc : ∀ c ∈ core, c ≠ '=') :
    stripEq (core ++ List.replicate pad '=') = core := by
  unfold stripEq
  rw [List.reverse_append, List.reverse_replicate]
  rw [List.dropWhile_append_of_pos
    (fun a ha => by simp [List.eq_of_mem_replicate ha])]
  cases hcr : core.reverse with
  | nil =>
    have : core = [] := List.reverse_eq_nil_iff.mp hcr
    simp [this]
  | cons x xs =>
    have hx : x ∈ core := by
      have hxr : x ∈ core.reverse := by
        rw [hcr]
        exact List.mem_cons_self _ _
      exact List.mem_reverse.mp hxr
    rw [List.dropWhile_cons, if_neg (by simp [hc x hx])]
    rw [← hcr, List.reverse_reverse]

theorem padEq_of_shape (core : List Char) (pad : Nat) (hpad : pad ≤ 2)
    (hmod : (core.length + pad) % 4 = 0) :
    padEq core = core ++ List.replicate pad '=' := by
  unfold padEq
  by_cases h0 : core.length % 4 = 0
  · rw [if_pos h0]
    have hp0 : pad = 0 := by omega
    simp [hp0]
  · rw [if_neg h0]
    have hp : 4 - core.length % 4 = pad := by omega
    rw [hp]

theorem fromUrlChar_toUrlChar (c : Char) (h1 : c ≠ '-') (h2 : c ≠ '_') :
    fromUrlChar (toUrlChar c) = c := by
  by_cases hp : c = '+'
  · subst hp
    decide
  · by_cases hs : c = '/'
    · subst hs
      decide
    · unfold toUrlChar fromUrlChar
      rw [if_neg hp, if_neg hs, if_neg h1, if_neg h2]

theorem isJsSpace_toUrlChar (c : Char) (h : isJsSpace c = false) :
    isJsSpace (toUrlChar c) = false := by
  by_cases hp : c = '+'
  · subst hp
    decide
  · by_cases hs : c = '/'
    · subst hs
      decide
    · unfold toUrlChar
      rw [if_neg hp, if_neg hs]
      exact h

theorem dropWhile_eq_self_of_false {α : Type} {p : α → Bool} :
    ∀ (l : List α), (∀ c ∈ l, p c = false) → l.dropWhile p = l
  | [], _ => rfl
  | c :: t, h => by
    rw [List.dropWhile_cons, if_neg (by simp [h c (List.mem_cons_self c t)])]

theorem jsTrim_eq_self (s : List Char) (h : ∀ c ∈ s, isJsSpace c = false) :
    jsTrim s = s := by
  unfold jsTrim
  rw [dropWhile_eq_self_of_false s h,
    dropWhile_eq_self_of_false s.reverse (fun c hc => h c (List.mem_reverse.mp hc)),
    List.reverse_reverse]

theorem b64UrlDecode_b64UrlEncode (bs : List Nat) (h : ∀ b ∈ bs, b < 256) :
    b64UrlDecode (b64UrlEncode bs) = some bs := by
  obtain ⟨core, pad, hsh, hp2, hmod, hcf⟩ := btoaB_shape bs h
  have hstrip : stripEq (btoaB bs) = core := by
    rw [hsh]
    exact stripEq_append_replicate core pad (fun c hc => (hcf c hc).1)
  unfold b64UrlEncode b64UrlDecode
  rw [hstrip, List.map_map]
  have hmapid : core.map (fromUrlChar ∘ toUrlChar) = core := by
    have hcg : core.map (fromUrlChar ∘ toUrlChar) = core.map id :=
      List.map_congr_left (fun c hc => by
        have hf := hcf c hc
        exact fromUrlChar_toUrlChar c hf.2.1 hf.2.2.1)
    rw [hcg, List.map_id]
  rw [hmapid, padEq_of_shape core pad hp2 hmod, ← hsh]
  exact atobB_btoaB bs h

/-! ### Claim C1 — encryption round-trip -/

/-- C1: for every plaintext and root key, and every (well-formed) salt and
IV drawn by the engine's randomness, decrypting the sealed output with the
same key returns exactly the original plaintext, for any platform
cryptography satisfying its contract. -/
theorem decryptMessage_encryptMessage (P : CryptoPrims) (p : List Char)
    (key salt iv : List Nat) (hs : salt.length = 16) (hv : iv.length = 12)
    (hsb : ∀ b ∈ salt, b < 256) (hvb : ∀ b ∈ iv, b < 256) :
    decryptMessage P (encryptMessage P p key salt iv) key = Except.ok p := by
  have hctb : ∀ b ∈ P.encrypt (P.deriveKey key salt) iv (P.utf8Encode p), b < 256 :=
    P.encrypt_bytesLT _ _ _ (P.utf8_bytesLT p)
  set ct := P.encrypt (P.deriveKey key salt) iv (P.utf8Encode p) with hct
  have hE : encryptMessage P p key salt iv = b64UrlEncode (salt ++ iv ++ ct) := rfl
  have hcb : ∀ b ∈ salt ++ iv ++ ct, b < 256 := by
    intro b hb
    rcases List.mem_append.mp hb with h1 | h2
    · rcases List.mem_append.mp h1 with h3 | h4
      · exact hsb b h3
      · exact hvb b h4
    · exact hctb b h2
  have hdec : b64UrlDecode (b64UrlEncode (salt ++ iv ++ ct)) =
      some (salt ++ iv ++ ct) := b64UrlDecode_b64UrlEncode _ hcb
  have hnws : ∀ c ∈ b64UrlEncode (salt ++ iv ++ ct), isJsSpace c = false := by
    intro c hcmem
    unfold b64UrlEncode at hcmem
    obtain ⟨c', hc', hce⟩ := List.mem_map.mp hcmem
    obtain ⟨core, pad, hsh, _, _, hcf⟩ := btoaB_shape (salt ++ iv ++ ct) hcb
    rw [hsh, stripEq_append_replicate core pad (fun c2 hc2 => (hcf c2 hc2).1)] at hc'
    rw [← hce]
    exact isJsSpace_toUrlChar c' (hcf c' hc').2.2.2
  have htrim : jsTrim (b64UrlEncode (salt ++ iv ++ ct)) =
      b64UrlEncode (salt ++ iv ++ ct) := jsTrim_eq_self _ hnws
  have hlen : (salt ++ iv ++ ct).length = 28 + ct.length := by
    simp [hs, hv]
    omega
  have h1 : (salt ++ iv ++ ct).take 16 = salt := by
    rw [List.append_assoc]
    exact List.take_left' hs
  have h2 : ((salt ++ iv ++ ct).drop 16).take 12 = iv := by
    rw [List.append_assoc, List.drop_left' hs]
    exact List.take_left' hv
  have h3 : (salt ++ iv ++ ct).drop 28 = ct := by
    apply List.drop_left'
    simp [hs, hv]
  unfold decryptMessage
  simp only []
  rw [hE, htrim, hdec]
  simp only []
  rw [if_neg (by omega), h1, h2, h3]
  rw [if_neg (fun hh => hh hs), if_neg (fun hh => hh hv)]
  rw [hct, P.decrypt_encrypt]
  simp only []
  rw [P.utf8_roundtrip]

/-- C1 witness: the round-trip evaluated with the concrete platform
instance on a concrete plaintext, key, salt and IV. -/
theorem decryptMessage_encryptMessage_witness :
    decryptMessage toyPrims
      (encryptMessage toyPrims "hello world".toList [7, 13]
        (List.replicate 16 0) (List.replicate 12 1)) [7, 13] =
      Except.ok "hello world".toList :=
  decryptMessage_encryptMessage toyPrims "hello world".toList [7, 13]
    (List.replicate 16 0) (List.replicate 12 1)
    (by decide) (by decide) (by decide) (by decide)
